import Mathlib

/-!
Shallow embedding of `src/unique-elems/src/main.rs` (the distinct-count
estimator `UniquesInAStream`) and proofs about it.

Modelling conventions:
* `f64` values are modelled as real numbers (`ℝ`); the `as usize` / `as u64`
  saturating casts of non-negative values are modelled by `Int.toNat` after
  `Int.ceil` / `Int.floor`.
* The `HashSet<u64>` is modelled as a `Finset ℕ`.
* The thread-local RNG is modelled by injecting the random draws: `update`
  receives the uniform draw `r` (the source's `self.rng.gen()`) and a
  function `flips` giving the per-element coin flip used by
  `self.X.retain(|_| rand::random())`.
* The `panic!("This should not happen!")` is modelled by `update` returning
  `none`; a normal return is `some` of the new state.
-/

noncomputable section

namespace UniqueElems

/-- Model of `pub struct UniquesInAStream` (the `rng` field is replaced by
injected randomness). -/
structure UniquesInAStream where
  X : Finset ℕ
  p : ℝ
  stream_size : ℝ
  eps : ℝ
  delta : ℝ

/-- Model of `UniquesInAStream::new(stream_size, eps, delta)`. -/
def new (stream_size : ℕ) (eps delta : ℝ) : UniquesInAStream :=
  { X := ∅, p := 1, stream_size := (stream_size : ℝ), eps := eps, delta := delta }

/-- Model of `UniquesInAStream::thresh`:
`((12.0 / (eps * eps)) * ((8.0 * stream_size) / delta).ln()).ceil() as usize`. -/
def thresh (s : UniquesInAStream) : ℕ :=
  (⌈(12 / (s.eps * s.eps)) * Real.log ((8 * s.stream_size) / s.delta)⌉).toNat

/-- The remove-then-conditionally-insert step of `update`:
`self.X.remove(&new_elem); if r <= self.p() { self.X.insert(*new_elem); }`. -/
def trialX (s : UniquesInAStream) (new_elem : ℕ) (r : ℝ) : Finset ℕ :=
  if r ≤ s.p then insert new_elem (s.X.erase new_elem) else s.X.erase new_elem

/-- The state of the estimator at the point where `update` calls
`self.thresh()`: `stream_size` has been incremented and the membership trial
for `new_elem` has run, but no thinning has happened yet. -/
def afterTrial (s : UniquesInAStream) (new_elem : ℕ) (r : ℝ) : UniquesInAStream :=
  { X := trialX s new_elem r, p := s.p, stream_size := s.stream_size + 1,
    eps := s.eps, delta := s.delta }

/-- Model of `UniquesInAStream::update`.  `r` is the uniform draw
`self.rng.gen()`, `flips` the per-element coin flips used by
`self.X.retain(|_| rand::random())`.  Returns `none` exactly where the source
panics ("This should not happen!"). -/
def update (s : UniquesInAStream) (new_elem : ℕ) (r : ℝ) (flips : ℕ → Bool) :
    Option UniquesInAStream :=
  let s2 := afterTrial s new_elem r
  let t := thresh s2
  if s2.X.card = t then
    let X3 := s2.X.filter (fun x => flips x = true)
    if X3.card = t then none
    else some { s2 with X := X3, p := s2.p / 2 }
  else some s2

/-- Runs a sequence of `update` calls; each list entry carries the element,
the uniform draw and the thinning coin flips for that call.  Stops with
`none` as soon as one call panics. -/
def runUpdates : UniquesInAStream → List (ℕ × ℝ × (ℕ → Bool)) → Option UniquesInAStream
  | s, [] => some s
  | s, i :: rest =>
    match update s i.1 i.2.1 i.2.2 with
    | none => none
    | some s1 => runUpdates s1 rest

/-- Model of `UniquesInAStream::to_result`:
`(self.X.len() as f64 / self.p) as u64`. -/
def to_result (s : UniquesInAStream) : ℕ :=
  (⌊(s.X.card : ℝ) / s.p⌋).toNat

/-- The stream of `fn main`:
`(0..100).map(|v| (1 + (-1 as i32).pow(v)) as u64)`. -/
def exampleElems : List ℕ :=
  (List.range 100).map (fun v => (1 + (-1 : ℤ) ^ v).toNat)

/-! ### Basic lemmas about the trial step -/

lemma mem_trialX_self (s : UniquesInAStream) (e : ℕ) (r : ℝ) :
    e ∈ trialX s e r ↔ r ≤ s.p := by
  unfold trialX
  split
  · simp_all
  · simp_all [Finset.not_mem_erase]

lemma mem_trialX_of_ne (s : UniquesInAStream) (e : ℕ) (r : ℝ) (x : ℕ) (hx : x ≠ e) :
    x ∈ trialX s e r ↔ x ∈ s.X := by
  unfold trialX
  split <;> simp [Finset.mem_insert, Finset.mem_erase, hx]

lemma trialX_card_le (s : UniquesInAStream) (e : ℕ) (r : ℝ) :
    (trialX s e r).card ≤ s.X.card + 1 := by
  unfold trialX
  split
  · exact le_trans (Finset.card_insert_le _ _)
      (Nat.succ_le_succ (Finset.card_erase_le))
  · exact le_trans Finset.card_erase_le (Nat.le_succ _)

/-! ### Case analysis of `update` -/

lemma update_some_elim {s : UniquesInAStream} {e : ℕ} {r : ℝ} {f : ℕ → Bool}
    {s' : UniquesInAStream} (h : update s e r f = some s') :
    (s' = afterTrial s e r ∧
      (afterTrial s e r).X.card ≠ thresh (afterTrial s e r)) ∨
    (s' = { afterTrial s e r with
              X := (afterTrial s e r).X.filter (fun x => f x = true),
              p := s.p / 2 } ∧
      (afterTrial s e r).X.card = thresh (afterTrial s e r) ∧
      ((afterTrial s e r).X.filter (fun x => f x = true)).card ≠
        thresh (afterTrial s e r)) := by
  simp only [update] at h
  split at h
  · split at h
    · exact absurd h (by simp)
    · right
      refine ⟨(Option.some.injEq _ _).mp h.symm, by assumption, by assumption⟩
  · left
    exact ⟨(Option.some.injEq _ _).mp h.symm, by assumption⟩

lemma update_eq_some_of_ne {s : UniquesInAStream} {e : ℕ} {r : ℝ} (f : ℕ → Bool)
    (hne : (afterTrial s e r).X.card ≠ thresh (afterTrial s e r)) :
    update s e r f = some (afterTrial s e r) := by
  simp only [update]
  rw [if_neg hne]

lemma update_fields {s : UniquesInAStream} {e : ℕ} {r : ℝ} {f : ℕ → Bool}
    {s' : UniquesInAStream} (h : update s e r f = some s') :
    s'.eps = s.eps ∧ s'.delta = s.delta ∧ s'.stream_size = s.stream_size + 1 := by
  rcases update_some_elim h with ⟨rfl, -⟩ | ⟨rfl, -, -⟩ <;>
    exact ⟨rfl, rfl, rfl⟩

lemma update_p_cases {s : UniquesInAStream} {e : ℕ} {r : ℝ} {f : ℕ → Bool}
    {s' : UniquesInAStream} (h : update s e r f = some s') :
    (s'.p = s.p ∧ s' = afterTrial s e r) ∨
    (s'.p = s.p / 2 ∧
      (afterTrial s e r).X.card = thresh (afterTrial s e r)) := by
  rcases update_some_elim h with ⟨rfl, -⟩ | ⟨rfl, ht, -⟩
  · exact Or.inl ⟨rfl, rfl⟩
  · exact Or.inr ⟨rfl, ht⟩

/-! ### Threshold lemmas -/

lemma thresh_congr {s s' : UniquesInAStream} (he : s.eps = s'.eps)
    (hd : s.delta = s'.delta) (hn : s.stream_size = s'.stream_size) :
    thresh s = thresh s' := by
  unfold thresh
  rw [he, hd, hn]

lemma thresh_zero {s : UniquesInAStream} (hn : s.stream_size = 0) :
    thresh s = 0 := by
  unfold thresh
  rw [hn]
  norm_num [Real.log_zero]

lemma thresh_mono_pos {s s' : UniquesInAStream} (he : s.eps = s'.eps)
    (hd : s.delta = s'.delta) (hδ : 0 < s.delta) (hn : 0 < s.stream_size)
    (hnm : s.stream_size ≤ s'.stream_size) : thresh s ≤ thresh s' := by
  unfold thresh
  rw [← he, ← hd]
  refine Int.toNat_le_toNat (Int.ceil_le_ceil ?_)
  have harg : 0 < 8 * s.stream_size / s.delta := by positivity
  have hle : 8 * s.stream_size / s.delta ≤ 8 * s'.stream_size / s.delta := by
    gcongr
  have hc : 0 ≤ 12 / (s.eps * s.eps) :=
    div_nonneg (by norm_num) (mul_self_nonneg _)
  exact mul_le_mul_of_nonneg_left (Real.log_le_log harg hle) hc

lemma le_thresh (s : UniquesInAStream) (k : ℕ)
    (h : (k : ℝ) < (12 / (s.eps * s.eps)) * Real.log ((8 * s.stream_size) / s.delta)) :
    k + 1 ≤ thresh s := by
  unfold thresh
  have h1 : (k : ℤ) < ⌈(12 / (s.eps * s.eps)) * Real.log ((8 * s.stream_size) / s.delta)⌉ :=
    Int.lt_ceil.mpr (by exact_mod_cast h)
  omega

lemma thresh_lb {s : UniquesInAStream} (he : 0 < s.eps) (he1 : s.eps < 1)
    (hδ : 0 < s.delta) (hδ1 : s.delta < 1) (hn : 1 ≤ s.stream_size) :
    25 ≤ thresh s := by
  have heps2 : 0 < s.eps * s.eps := mul_pos he he
  have hc : (12 : ℝ) < 12 / (s.eps * s.eps) := by
    rw [lt_div_iff₀ heps2]
    nlinarith
  have harg : (8 : ℝ) ≤ 8 * s.stream_size / s.delta := by
    rw [le_div_iff₀ hδ]
    nlinarith
  have hlog8 : (2 : ℝ) < Real.log 8 := by
    have h8 : (8 : ℝ) = 2 ^ (3 : ℕ) := by norm_num
    rw [h8, Real.log_pow]
    have := Real.log_two_gt_d9
    push_cast
    nlinarith
  have hlog : (2 : ℝ) < Real.log (8 * s.stream_size / s.delta) :=
    lt_of_lt_of_le hlog8 (Real.log_le_log (by norm_num) harg)
  have hin : (24 : ℝ) < (12 / (s.eps * s.eps)) * Real.log ((8 * s.stream_size) / s.delta) := by
    nlinarith [mul_pos (sub_pos.mpr hc) (sub_pos.mpr hlog)]
  have := le_thresh s 24 (by exact_mod_cast hin)
  omega

/-! ### The well-formedness carried along a run -/

/-- The configuration facts preserved by every `update` call: the accuracy
parameters lie in `(0,1)` and the running stream size is non-negative. -/
def Good (s : UniquesInAStream) : Prop :=
  0 < s.eps ∧ s.eps < 1 ∧ 0 < s.delta ∧ s.delta < 1 ∧ 0 ≤ s.stream_size

lemma good_new (hint : ℕ) {eps δ : ℝ} (he : 0 < eps) (he1 : eps < 1)
    (hδ : 0 < δ) (hδ1 : δ < 1) : Good (new hint eps δ) :=
  ⟨he, he1, hδ, hδ1, Nat.cast_nonneg hint⟩

lemma good_update {s : UniquesInAStream} {e : ℕ} {r : ℝ} {f : ℕ → Bool}
    {s' : UniquesInAStream} (hG : Good s) (h : update s e r f = some s') :
    Good s' := by
  obtain ⟨f1, f2, f3⟩ := update_fields h
  obtain ⟨g1, g2, g3, g4, g5⟩ := hG
  exact ⟨f1 ▸ g1, f1 ▸ g2, f2 ▸ g3, f2 ▸ g4, by rw [f3]; linarith⟩

lemma update_inv {s : UniquesInAStream} {e : ℕ} {r : ℝ} {f : ℕ → Bool}
    {s' : UniquesInAStream} (hG : Good s)
    (hQ : s.X.card = 0 ∨ s.X.card < thresh s)
    (h : update s e r f = some s') : s'.X.card < thresh s' := by
  obtain ⟨he, he1, hδ, hδ1, hn⟩ := hG
  obtain ⟨f1, f2, f3⟩ := update_fields h
  have hth : thresh s' = thresh (afterTrial s e r) := thresh_congr f1 f2 f3
  rw [hth]
  have hcard2 : (afterTrial s e r).X.card ≤ s.X.card + 1 := trialX_card_le s e r
  rcases update_some_elim h with ⟨rfl, hne⟩ | ⟨rfl, ht, hne⟩
  · -- no thinning; the set is below the (non-decreased) threshold
    rcases hQ with h0 | hlt
    · have h25 : 25 ≤ thresh (afterTrial s e r) :=
        thresh_lb he he1 hδ hδ1 (by show (1 : ℝ) ≤ s.stream_size + 1; linarith)
      omega
    · rcases eq_or_lt_of_le hn with hz | hpos
      · rw [thresh_zero hz.symm] at hlt
        omega
      · have hmono : thresh s ≤ thresh (afterTrial s e r) :=
          thresh_mono_pos rfl rfl hδ hpos (by show s.stream_size ≤ s.stream_size + 1; linarith)
        omega
  · -- thinning ran: the filtered set is no larger than the threshold and not equal to it
    have hsub : ((afterTrial s e r).X.filter (fun x => f x = true)).card ≤
        (afterTrial s e r).X.card := Finset.card_filter_le _ _
    show ((afterTrial s e r).X.filter (fun x => f x = true)).card <
      thresh (afterTrial s e r)
    omega

lemma runUpdates_inv : ∀ (l : List (ℕ × ℝ × (ℕ → Bool))) (s s' : UniquesInAStream),
    Good s → s.X.card < thresh s → runUpdates s l = some s' → s'.X.card < thresh s'
  | [], s, s', _, hI, h => by
    simp only [runUpdates, Option.some.injEq] at h
    exact h ▸ hI
  | i :: rest, s, s', hG, hI, h => by
    rw [runUpdates] at h
    cases hu : update s i.1 i.2.1 i.2.2 with
    | none => rw [hu] at h; exact absurd h (by simp)
    | some s1 =>
      rw [hu] at h
      exact runUpdates_inv rest s1 s' (good_update hG hu)
        (update_inv hG (Or.inr hI) hu) h

/-- C1: after every `update` call that returns normally, the size of the
retained set is strictly below the threshold computed at the updated
`processed_count`, for every update sequence started from `new` with
`epsilon, delta ∈ (0,1)` and any non-negative size hint. -/
theorem retained_lt_threshold_after_update (hint : ℕ) (eps δ : ℝ)
    (l : List (ℕ × ℝ × (ℕ → Bool))) (s : UniquesInAStream)
    (he : 0 < eps) (he1 : eps < 1) (hδ : 0 < δ) (hδ1 : δ < 1)
    (hl : l ≠ []) (h : runUpdates (new hint eps δ) l = some s) :
    s.X.card < thresh s := by
  cases l with
  | nil => exact absurd rfl hl
  | cons i rest =>
    rw [runUpdates] at h
    cases hu : update (new hint eps δ) i.1 i.2.1 i.2.2 with
    | none => rw [hu] at h; exact absurd h (by simp)
    | some s1 =>
      rw [hu] at h
      have hG := good_new hint he he1 hδ hδ1
      exact runUpdates_inv rest s1 s (good_update hG hu)
        (update_inv hG (Or.inl rfl) hu) h

/-- Witness for C1: one concrete successful `update` (element 5, draw 1) on
`new 0 (1/2) (1/2)` ends with the retained set strictly below the threshold. -/
theorem retained_lt_threshold_after_update_witness :
    runUpdates (new 0 (1/2) (1/2)) [(5, 1, fun _ => true)] =
      some (afterTrial (new 0 (1/2) (1/2)) 5 1) ∧
    (afterTrial (new 0 (1/2) (1/2)) 5 1).X.card <
      thresh (afterTrial (new 0 (1/2) (1/2)) 5 1) := by
  have hX : (afterTrial (new 0 (1/2) (1/2)) 5 1).X = {5} := by
    simp [afterTrial, trialX, new]
  have h25 : 25 ≤ thresh (afterTrial (new 0 (1/2) (1/2)) 5 1) := by
    apply thresh_lb <;> norm_num [afterTrial, new]
  have hne : (afterTrial (new 0 (1/2) (1/2)) 5 1).X.card ≠
      thresh (afterTrial (new 0 (1/2) (1/2)) 5 1) := by
    rw [hX, Finset.card_singleton]
    omega
  have hrun : runUpdates (new 0 (1/2) (1/2)) [(5, 1, fun _ => true)] =
      some (afterTrial (new 0 (1/2) (1/2)) 5 1) := by
    rw [runUpdates, update_eq_some_of_ne _ hne]
    rfl
  exact ⟨hrun, retained_lt_threshold_after_update 0 (1/2) (1/2) _ _
    (by norm_num) (by norm_num) (by norm_num) (by norm_num) (by simp) hrun⟩

/-- C5: `update` first removes the element regardless of prior membership and
then re-trials it: after the trial step (before any thinning) the element is
retained iff the draw `r` satisfies `r ≤ sampling_rate`; the outcome is the
same whether or not the element was previously retained (no grandfathering). -/
theorem update_retrials_element (s : UniquesInAStream) (e : ℕ) (r : ℝ) :
    (e ∈ (afterTrial s e r).X ↔ r ≤ s.p) ∧
    afterTrial s e r =
      afterTrial { s with X := s.X.erase e } e r := by
  constructor
  · exact mem_trialX_self s e r
  · unfold afterTrial trialX
    simp [Finset.erase_idem]

/-- C7: the `update` call fails (the source's
`panic!("This should not happen!")`) exactly when the thinning step ran (the
trial set reached the threshold) and after thinning the retained set still has
threshold size; on every other path `update` returns a state. -/
theorem update_fatal_iff (s : UniquesInAStream) (e : ℕ) (r : ℝ) (f : ℕ → Bool) :
    update s e r f = none ↔
      ((afterTrial s e r).X.card = thresh (afterTrial s e r) ∧
        ((afterTrial s e r).X.filter (fun x => f x = true)).card =
          thresh (afterTrial s e r)) := by
  simp only [update]
  split
  · split
    · simp_all
    · simp_all
  · simp_all

/-- C10: when the thinning branch does not execute, `update` changes only the
tried element's membership (every other element's membership is untouched),
and `epsilon`, `delta` are unchanged by every successful `update`. -/
theorem update_frame (s : UniquesInAStream) (e : ℕ) (r : ℝ) (f : ℕ → Bool)
    (h : (afterTrial s e r).X.card ≠ thresh (afterTrial s e r)) :
    update s e r f = some (afterTrial s e r) ∧
    (∀ x : ℕ, x ≠ e → ((x ∈ (afterTrial s e r).X) ↔ x ∈ s.X)) ∧
    (∀ (e' : ℕ) (r' : ℝ) (f' : ℕ → Bool) (s' : UniquesInAStream),
      update s e' r' f' = some s' → s'.eps = s.eps ∧ s'.delta = s.delta) := by
  refine ⟨update_eq_some_of_ne f h, ?_, ?_⟩
  · intro x hx
    exact mem_trialX_of_ne s e r x hx
  · intro e' r' f' s' h'
    exact ⟨(update_fields h').1, (update_fields h').2.1⟩

/-- Witness for C10: with element 3 and draw 1 on `new 0 (1/2) (1/2)` the
thinning branch does not run and `update` returns the trial state. -/
theorem update_frame_witness :
    update (new 0 (1/2) (1/2)) 3 1 (fun _ => true) =
      some (afterTrial (new 0 (1/2) (1/2)) 3 1) := by
  have hX : (afterTrial (new 0 (1/2) (1/2)) 3 1).X = {3} := by
    simp [afterTrial, trialX, new]
  have h25 : 25 ≤ thresh (afterTrial (new 0 (1/2) (1/2)) 3 1) := by
    apply thresh_lb <;> norm_num [afterTrial, new]
  have hne : (afterTrial (new 0 (1/2) (1/2)) 3 1).X.card ≠
      thresh (afterTrial (new 0 (1/2) (1/2)) 3 1) := by
    rw [hX, Finset.card_singleton]
    omega
  exact (update_frame (new 0 (1/2) (1/2)) 3 1 (fun _ => true) hne).1

/-! ### The estimate `to_result` -/

@[simp] lemma thresh_mk (X : Finset ℕ) (p n e d : ℝ) :
    thresh (UniquesInAStream.mk X p n e d) =
      (⌈(12 / (e * e)) * Real.log ((8 * n) / d)⌉).toNat := rfl

lemma div_half_pow (x : ℝ) (k : ℕ) : x / (1 / 2 : ℝ) ^ k = x * 2 ^ k := by
  rw [one_div, inv_pow, div_eq_mul_inv, inv_inv]

lemma to_result_pow (s : UniquesInAStream) (k : ℕ) (h : s.p = (1 / 2 : ℝ) ^ k) :
    to_result s = s.X.card * 2 ^ k := by
  unfold to_result
  rw [h, div_half_pow]
  have hcast : (s.X.card : ℝ) * 2 ^ k = ((s.X.card * 2 ^ k : ℕ) : ℝ) := by
    push_cast
    ring
  rw [hcast, Int.floor_natCast]
  exact Int.toNat_natCast _

/-- C2: `to_result` returns `|retained| / sampling_rate` (non-negative); when
the sampling rate is `1/2^k` the quotient is exact and the returned value is
`|retained| * 2^k`. -/
theorem estimate_eq_card_div_rate (s : UniquesInAStream) (k : ℕ)
    (h : s.p = (1 / 2 : ℝ) ^ k) :
    (to_result s : ℝ) = (s.X.card : ℝ) / s.p ∧
    to_result s = s.X.card * 2 ^ k ∧ 0 ≤ to_result s := by
  have h2 := to_result_pow s k h
  refine ⟨?_, h2, Nat.zero_le _⟩
  rw [h2, h, div_half_pow]
  push_cast
  ring

/-- Witness for C2: a retained set of two elements at sampling rate `1/2`
yields the estimate `4`. -/
theorem estimate_eq_card_div_rate_witness :
    to_result (UniquesInAStream.mk {1, 2} (1 / 2) 0 1 1) = 4 := by
  have h := (estimate_eq_card_div_rate (UniquesInAStream.mk {1, 2} (1 / 2) 0 1 1) 1
    (by norm_num)).2.1
  simpa using h

/-! ### Construction -/

/-- C3 (amended): `new` performs no validation at all: for every
`(hint, eps, delta)` — including `eps ≤ 0` and `delta` outside `(0,1)` — it
returns the normally-initialized state (empty retained set, sampling rate 1,
processed count equal to the hint); no configuration error is reported at
construction. -/
theorem construction_never_validates (hint : ℕ) (eps δ : ℝ) :
    new hint eps δ = UniquesInAStream.mk ∅ 1 (hint : ℝ) eps δ := rfl

/-- Counterexample to C3 as stated: constructing with `eps = -1 ≤ 0` (and
`delta = 1/2`) does not fail — it returns an ordinary fully-initialized
state, and the first `update` on it also returns normally, so no
configuration error is raised at construction or later. -/
theorem construction_accepts_invalid_eps :
    new 0 (-1) (1/2) = UniquesInAStream.mk ∅ 1 0 (-1) (1/2) ∧
    update (new 0 (-1) (1/2)) 5 1 (fun _ => true) =
      some (afterTrial (new 0 (-1) (1/2)) 5 1) := by
  constructor
  · show UniquesInAStream.mk ∅ 1 ((0 : ℕ) : ℝ) (-1) (1/2) = _
    norm_num
  · apply update_eq_some_of_ne
    have hX : (afterTrial (new 0 (-1) (1/2)) 5 1).X = {5} := by
      simp [afterTrial, trialX, new]
    have h2 : 2 ≤ thresh (afterTrial (new 0 (-1) (1/2)) 5 1) := by
      have h := le_thresh (afterTrial (new 0 (-1) (1/2)) 5 1) 1 ?_
      · omega
      · simp only [afterTrial, trialX, new]
        norm_num
        have h16 : (16 : ℝ) = 2 ^ (4 : ℕ) := by norm_num
        rw [h16, Real.log_pow]
        have := Real.log_two_gt_d9
        push_cast
        nlinarith
    rw [hX, Finset.card_singleton]
    omega

/-! ### The threshold formula (C4) -/

/-- The spec's threshold formula `ceil((12/epsilon^2) * ln(8n/delta))`,
written from the spec's words, as an integer. -/
def threshSpec (eps δ n : ℝ) : ℤ :=
  ⌈(12 / eps ^ 2) * Real.log ((8 * n) / δ)⌉

/-- C4: for fixed `epsilon > 0` and `delta ∈ (0,1)` and all `n ≥ 1`, the
computed threshold equals `ceil((12/epsilon^2) * ln(8n/delta))` and is
non-decreasing in `n`. -/
theorem threshold_formula_and_monotone (X : Finset ℕ) (p eps δ n m : ℝ)
    (he : 0 < eps) (hδ : 0 < δ) (hδ1 : δ < 1) (hn : 1 ≤ n) (hm : n ≤ m) :
    ((thresh (UniquesInAStream.mk X p n eps δ) : ℕ) : ℤ) = threshSpec eps δ n ∧
    thresh (UniquesInAStream.mk X p n eps δ) ≤
      thresh (UniquesInAStream.mk X p m eps δ) := by
  constructor
  · rw [thresh_mk]
    unfold threshSpec
    have hpos : 0 < (12 / (eps * eps)) * Real.log ((8 * n) / δ) := by
      apply mul_pos
      · positivity
      · apply Real.log_pos
        rw [lt_div_iff₀ hδ]
        nlinarith
    rw [Int.toNat_of_nonneg (Int.ceil_nonneg hpos.le), pow_two]
  · exact thresh_mono_pos rfl rfl hδ (by linarith) hm

/-- Witness for C4: concrete parameters `epsilon = delta = 1/2`, `n = 1`,
`m = 2`. -/
theorem threshold_formula_and_monotone_witness :
    ((thresh (UniquesInAStream.mk ∅ 1 1 (1/2) (1/2)) : ℕ) : ℤ) =
      threshSpec (1/2) (1/2) 1 ∧
    thresh (UniquesInAStream.mk ∅ 1 1 (1/2) (1/2)) ≤
      thresh (UniquesInAStream.mk ∅ 1 2 (1/2) (1/2)) :=
  threshold_formula_and_monotone ∅ 1 (1/2) (1/2) 1 2
    (by norm_num) (by norm_num) (by norm_num) le_rfl (by norm_num)

/-! ### The sampling rate along a run (C6) -/

lemma runUpdates_p_pow : ∀ (l : List (ℕ × ℝ × (ℕ → Bool))) (s s' : UniquesInAStream),
    (∃ k : ℕ, s.p = (1 / 2 : ℝ) ^ k) → runUpdates s l = some s' →
    ∃ k : ℕ, s'.p = (1 / 2 : ℝ) ^ k
  | [], s, s', hk, h => by
    simp only [runUpdates, Option.some.injEq] at h
    exact h ▸ hk
  | i :: rest, s, s', hk, h => by
    rw [runUpdates] at h
    cases hu : update s i.1 i.2.1 i.2.2 with
    | none => rw [hu] at h; exact absurd h (by simp)
    | some s1 =>
      rw [hu] at h
      obtain ⟨k, hkk⟩ := hk
      refine runUpdates_p_pow rest s1 s' ?_ h
      rcases update_p_cases hu with ⟨hp, -⟩ | ⟨hp, -⟩
      · exact ⟨k, by rw [hp, hkk]⟩
      · exact ⟨k + 1, by rw [hp, hkk, pow_succ, mul_one_div]⟩

lemma runUpdates_p_le : ∀ (l : List (ℕ × ℝ × (ℕ → Bool))) (s s' : UniquesInAStream),
    0 < s.p → runUpdates s l = some s' → s'.p ≤ s.p ∧ 0 < s'.p
  | [], s, s', hp, h => by
    simp only [runUpdates, Option.some.injEq] at h
    exact h ▸ ⟨le_rfl, hp⟩
  | i :: rest, s, s', hp, h => by
    rw [runUpdates] at h
    cases hu : update s i.1 i.2.1 i.2.2 with
    | none => rw [hu] at h; exact absurd h (by simp)
    | some s1 =>
      rw [hu] at h
      have hp1 : s1.p ≤ s.p ∧ 0 < s1.p := by
        rcases update_p_cases hu with ⟨hpp, -⟩ | ⟨hpp, -⟩
        · exact ⟨hpp.le, hpp ▸ hp⟩
        · exact ⟨by rw [hpp]; linarith, by rw [hpp]; linarith⟩
      have := runUpdates_p_le rest s1 s' hp1.2 h
      exact ⟨this.1.trans hp1.1, this.2⟩

/-- C6: the sampling rate starts at `1`, is always of the form `1/2^k`
(hence in `(0,1]`), is non-increasing across every sequence of `update`
calls, and changes only by halving in the thinning step. -/
theorem sampling_rate_monotone_halving (hint : ℕ) (eps δ : ℝ)
    (l1 l2 : List (ℕ × ℝ × (ℕ → Bool))) (s1 s2 : UniquesInAStream)
    (h1 : runUpdates (new hint eps δ) l1 = some s1)
    (h2 : runUpdates s1 l2 = some s2) :
    (new hint eps δ).p = 1 ∧
    (∃ k : ℕ, s1.p = (1 / 2 : ℝ) ^ k) ∧ 0 < s1.p ∧ s1.p ≤ 1 ∧ s2.p ≤ s1.p ∧
    (∀ (e : ℕ) (r : ℝ) (f : ℕ → Bool) (s' : UniquesInAStream),
      update s1 e r f = some s' →
      s'.p = s1.p ∨ (s'.p = s1.p / 2 ∧
        (afterTrial s1 e r).X.card = thresh (afterTrial s1 e r))) := by
  obtain ⟨k, hk⟩ := runUpdates_p_pow l1 _ _ ⟨0, by norm_num [new]⟩ h1
  have hpos : 0 < s1.p := by rw [hk]; positivity
  have hle1 : s1.p ≤ 1 := by
    rw [hk]
    exact pow_le_one₀ (by norm_num) (by norm_num)
  refine ⟨rfl, ⟨k, hk⟩, hpos, hle1, (runUpdates_p_le l2 _ _ hpos h2).1, ?_⟩
  intro e r f s' h'
  rcases update_p_cases h' with ⟨hp, -⟩ | ⟨hp, ht⟩
  · exact Or.inl hp
  · exact Or.inr ⟨hp, ht⟩

/-- Witness for C6: the empty run from `new 0 (1/2) (1/2)`. -/
theorem sampling_rate_monotone_halving_witness :
    (new 0 (1/2) (1/2)).p = 1 ∧ 0 < (new 0 (1/2) (1/2)).p := by
  have h := sampling_rate_monotone_halving 0 (1/2) (1/2) [] [] _ _ rfl rfl
  exact ⟨h.1, h.2.2.1⟩

/-! ### The running stream size (C9) -/

lemma runUpdates_stream : ∀ (l : List (ℕ × ℝ × (ℕ → Bool))) (s s' : UniquesInAStream),
    runUpdates s l = some s' →
    s'.stream_size = s.stream_size + l.length ∧ s'.eps = s.eps ∧ s'.delta = s.delta
  | [], s, s', h => by
    simp only [runUpdates, Option.some.injEq] at h
    subst h
    simp
  | i :: rest, s, s', h => by
    rw [runUpdates] at h
    cases hu : update s i.1 i.2.1 i.2.2 with
    | none => rw [hu] at h; exact absurd h (by simp)
    | some s1 =>
      rw [hu] at h
      obtain ⟨f1, f2, f3⟩ := update_fields hu
      obtain ⟨g1, g2, g3⟩ := runUpdates_stream rest s1 s' h
      refine ⟨?_, g2.trans f1, g3.trans f2⟩
      rw [g1, f3]
      simp only [List.length_cons]
      push_cast
      ring

/-- C9: every threshold evaluation performed inside `update` happens after
`processed_count` has been incremented: starting from any non-negative size
hint, the state handed to `thresh` inside the next `update` carries
`stream_size = hint + (number of updates) + 1 ≥ 1`, so the logarithm argument
`8n/delta` is strictly positive. -/
theorem threshold_arg_at_least_one (hint : ℕ) (eps δ : ℝ)
    (l : List (ℕ × ℝ × (ℕ → Bool))) (s : UniquesInAStream) (e : ℕ) (r : ℝ)
    (hδ : 0 < δ) (h : runUpdates (new hint eps δ) l = some s) :
    (afterTrial s e r).stream_size = (hint : ℝ) + l.length + 1 ∧
    1 ≤ (afterTrial s e r).stream_size ∧
    0 < 8 * (afterTrial s e r).stream_size / (afterTrial s e r).delta := by
  obtain ⟨hs, -, hdd⟩ := runUpdates_stream l _ _ h
  have h1 : (afterTrial s e r).stream_size = (hint : ℝ) + l.length + 1 := by
    show s.stream_size + 1 = _
    rw [hs]
    rfl
  have h2 : 1 ≤ (afterTrial s e r).stream_size := by
    rw [h1]
    have := Nat.cast_nonneg (α := ℝ) hint
    have := Nat.cast_nonneg (α := ℝ) l.length
    linarith
  have h3 : (afterTrial s e r).delta = δ := hdd
  refine ⟨h1, h2, ?_⟩
  rw [h3]
  exact div_pos (by linarith) hδ

/-- Witness for C9: the state right after construction with hint 0. -/
theorem threshold_arg_at_least_one_witness :
    1 ≤ (afterTrial (new 0 1 (1/2)) 0 0).stream_size :=
  (threshold_arg_at_least_one 0 1 (1/2) [] _ 0 0 (by norm_num) rfl).2.1

/-! ### Exact counting while the sampling rate is still 1 (C8) -/

lemma insert_erase_eq_insert (X : Finset ℕ) (e : ℕ) :
    insert e (X.erase e) = insert e X := by
  ext x
  by_cases hx : x = e <;> simp [Finset.mem_insert, Finset.mem_erase, hx]

lemma runUpdates_p_one_X : ∀ (l : List (ℕ × ℝ × (ℕ → Bool))) (s s' : UniquesInAStream),
    s.p = 1 → (∀ i ∈ l, i.2.1 < (1 : ℝ)) → runUpdates s l = some s' → s'.p = 1 →
    s'.X = s.X ∪ (l.map Prod.fst).toFinset
  | [], s, s', _, _, h, _ => by
    simp only [runUpdates, Option.some.injEq] at h
    subst h
    simp
  | i :: rest, s, s', hp, hr, h, hp' => by
    rw [runUpdates] at h
    cases hu : update s i.1 i.2.1 i.2.2 with
    | none => rw [hu] at h; exact absurd h (by simp)
    | some s1 =>
      rw [hu] at h
      rcases update_p_cases hu with ⟨hp1, heq⟩ | ⟨hp1, -⟩
      · have hs1p : s1.p = 1 := hp1.trans hp
        have hX1 : s1.X = insert i.1 s.X := by
          rw [heq]
          show trialX s i.1 i.2.1 = _
          unfold trialX
          rw [if_pos (by rw [hp]; exact (hr i (by simp)).le)]
          exact insert_erase_eq_insert s.X i.1
        have ih := runUpdates_p_one_X rest s1 s' hs1p
          (fun j hj => hr j (by simp [hj])) h hp'
        rw [ih, hX1]
        simp only [List.map_cons, List.toFinset_cons]
        rw [Finset.insert_union, Finset.union_insert]
      · exfalso
        have hhalf : s1.p = 1 / 2 := by rw [hp1, hp]
        have := (runUpdates_p_le rest s1 s' (by rw [hhalf]; norm_num) h).1
        rw [hp', hhalf] at this
        linarith

set_option maxRecDepth 10000 in
lemma exampleElems_card : exampleElems.toFinset.card = 2 := by decide

/-- C8: while the sampling rate is still `1.0` every `update` (with a uniform
draw in `[0,1)`) inserts its element, so the retained set is exactly the set
of distinct elements submitted so far and `to_result` returns their exact
count; in particular the 100-element stream `1 + (-1)^v`, `v = 0..99`, yields
estimate exactly `2`. -/
theorem exact_count_while_rate_one (hint : ℕ) (eps δ : ℝ)
    (l : List (ℕ × ℝ × (ℕ → Bool))) (s : UniquesInAStream)
    (hr : ∀ i ∈ l, 0 ≤ i.2.1 ∧ i.2.1 < (1 : ℝ))
    (h : runUpdates (new hint eps δ) l = some s) (hp : s.p = 1) :
    s.X = (l.map Prod.fst).toFinset ∧
    to_result s = (l.map Prod.fst).toFinset.card ∧
    (l.map Prod.fst = exampleElems → to_result s = 2) := by
  have hX : s.X = (new hint eps δ).X ∪ (l.map Prod.fst).toFinset :=
    runUpdates_p_one_X l _ _ rfl (fun i hi => (hr i hi).2) h hp
  have hX' : s.X = (l.map Prod.fst).toFinset := by
    rw [hX]
    exact Finset.empty_union _
  have hres : to_result s = s.X.card := by
    have h0 := to_result_pow s 0 (by rw [hp]; norm_num)
    simpa using h0
  refine ⟨hX', by rw [hres, hX'], ?_⟩
  intro hl
  rw [hres, hX', hl, exampleElems_card]

/-- Witness for C8: a single update with element 5 and draw 0 from
`new 0 (1/2) (1/2)` keeps the rate at 1 and counts exactly one element. -/
theorem exact_count_while_rate_one_witness :
    to_result (afterTrial (new 0 (1/2) (1/2)) 5 0) =
      (([(5, 0, fun _ => true)] : List (ℕ × ℝ × (ℕ → Bool))).map Prod.fst).toFinset.card := by
  have hX : (afterTrial (new 0 (1/2) (1/2)) 5 0).X = {5} := by
    simp [afterTrial, trialX, new]
  have h25 : 25 ≤ thresh (afterTrial (new 0 (1/2) (1/2)) 5 0) := by
    apply thresh_lb <;> norm_num [afterTrial, new]
  have hne : (afterTrial (new 0 (1/2) (1/2)) 5 0).X.card ≠
      thresh (afterTrial (new 0 (1/2) (1/2)) 5 0) := by
    rw [hX, Finset.card_singleton]
    omega
  have hrun : runUpdates (new 0 (1/2) (1/2))
      ([(5, 0, fun _ => true)] : List (ℕ × ℝ × (ℕ → Bool))) =
      some (afterTrial (new 0 (1/2) (1/2)) 5 0) := by
    rw [runUpdates, update_eq_some_of_ne _ hne]
    rfl
  exact (exact_count_while_rate_one 0 (1/2) (1/2) _ _
    (by
      intro i hi
      simp only [List.mem_singleton] at hi
      subst hi
      norm_num) hrun rfl).2.1

end UniqueElems

end
